import Mathlib

set_option linter.unusedVariables false

/-!
# Verification of the Inspecta chunked-transcription and workflow core

Shallow embedding of the repository's core algorithms:

* `merge_incident_results` / `merge_results`
  (`TranscriptionAgent/src/groq_service.py` 107-144,
   `AudioExtractorAgent/src/groq_client.py` 93-122 — the two bodies are
   textually identical up to the method name);
* `get_audio_chunks`
  (`TranscriptionAgent/src/groq_service.py` 23-68,
   `AudioExtractorAgent/src/groq_client.py` 22-65 — again identical);
* `process_incident` / `transcribe` (the result-to-output path);
* the status projection of `WorkflowExecutor.get_status`
  (`Executor/src/workflowexecutor.py` 195-238);
* a workflow-engine model for checkpointed resumption and per-node retry
  (the execution semantics live in the third-party graph framework the
  executor delegates to, so they are modelled from the spec, §4.5/§4.6).

Timestamps are embedded as rationals: the Python code compares and adds
`float` second values; at the magnitudes involved the comparisons performed
by the merger and planner coincide with exact rational arithmetic.
-/

/-! ## Transcript data model

`process_chunk` returns, per chunk, a dict with keys `segments`
(list of `{start, end, text}`), `text`, optionally `language`, and on the
error path an `error` tag.  A missing `segments` key is read back with
`res.get("segments", [])`, so segments are embedded as a plain list; the
optional `language` and `error` keys are embedded as `Option`. -/

/-- One transcript segment `{start, end, text}`.  The source's `end` key is a
Lean keyword, so the field is named `stop`. -/
structure TranscriptSegment where
  start : ℚ
  stop : ℚ
  text : String
  deriving DecidableEq, Repr

/-- One chunk's transcription result as produced by `process_chunk`. -/
structure ChunkResult where
  segments : List TranscriptSegment
  text : String
  language : Option String
  error : Option String
  deriving DecidableEq, Repr

/-- `process_chunk`'s provider-error result
`{"segments": [], "text": "", "error": str(e)}`
(`groq_service.py` 101, `groq_client.py` 88). -/
def errorChunkResult (msg : String) : ChunkResult :=
  { segments := [], text := "", language := none, error := some msg }

/-- The value returned by `merge_incident_results`: either the bare empty
dict `{}` (empty input) or a dict carrying all four of the
`text/segments/language/duration` keys. -/
inductive MergedDict where
  | empty
  | full (text : String) (segments : List TranscriptSegment)
      (language : String) (duration : ℚ)
  deriving DecidableEq, Repr

/-! ## The merger (`merge_incident_results`, lines 107-144) -/

/-- Python's `str.strip()` (line 143): drop leading and trailing whitespace.
Implemented structurally over the character list (Lean's `String.trim` has
the same meaning on these inputs but its byte-position recursion does not
reduce in the kernel). -/
def pyStrip (s : String) : String :=
  ⟨((s.data.dropWhile Char.isWhitespace).reverse.dropWhile
      Char.isWhitespace).reverse⟩

/-- The text join of line 139: `" ".join([s["text"] for s in new_segments])`. -/
def joinTexts (segs : List TranscriptSegment) : String :=
  String.intercalate " " (segs.map TranscriptSegment.text)

/-- The per-segment keep test of lines 131-132: a segment is skipped iff
`i > 0 and seg["start"] < last_end_time - 0.5`, i.e. kept iff
`i == 0` or `last_end_time - 0.5 ≤ start`. -/
def keepSegment (i : Nat) (lastEnd : ℚ) (s : TranscriptSegment) : Bool :=
  i == 0 || decide (lastEnd - 1/2 ≤ s.start)

/-- The merge loop of lines 122-141, accumulating (`merged["text"]`,
`merged["segments"]`, `last_end_time`) over the chunk results; `i` is the
`enumerate` index.  When a chunk contributes no surviving segment the
accumulators are untouched (the `if new_segments:` guard, line 135). -/
def mergeGo : Nat → ℚ → String → List TranscriptSegment → List ChunkResult →
    String × List TranscriptSegment × ℚ
  | _, lastEnd, text, segs, [] => (text, segs, lastEnd)
  | i, lastEnd, text, segs, r :: rs =>
    let kept := r.segments.filter (keepSegment i lastEnd)
    match kept.getLast? with
    | none => mergeGo (i + 1) lastEnd text segs rs
    | some lastKept =>
        mergeGo (i + 1) lastKept.stop (text ++ " " ++ joinTexts kept)
          (segs ++ kept) rs

/-- `merged["duration"]` (lines 118-120): the `end` of the last segment of
the last result when that segment list is non-empty, else the initial `0`. -/
def lastChunkDuration (results : List ChunkResult) : ℚ :=
  match results.getLast? with
  | none => 0
  | some r =>
    match r.segments.getLast? with
    | none => 0
    | some s => s.stop

/-- `merge_incident_results(results, overlap_sec)` (lines 107-144; identical
to `merge_results` in `groq_client.py`).  The `overlap_sec` parameter is
accepted and, as in the source, never used — the 0.5 s slack is hard-coded.
The final text is stripped (`merged["text"].strip()`, line 143). -/
def merge_incident_results (overlap_sec : ℤ) (results : List ChunkResult) :
    MergedDict :=
  match results with
  | [] => MergedDict.empty
  | r0 :: _ =>
    let language := r0.language.getD "en"
    let duration := lastChunkDuration results
    let acc := mergeGo 0 0 "" [] results
    MergedDict.full (pyStrip acc.1) acc.2.1 language duration

/-- The merged segment list alone (for the ordering claims). -/
def mergedSegments (results : List ChunkResult) : List TranscriptSegment :=
  (mergeGo 0 0 "" [] results).2.1

/-- `process_incident` (`groq_service.py` 146-164) / `transcribe`
(`groq_client.py` 124-138), embedded from the point where the per-chunk
results have been collected (chunking and the provider calls are external
I/O): the source simply returns `merge_incident_results(results, 5)` —
there is no `raise` anywhere on this path, so the exception channel of the
embedding is always `.ok`. -/
def process_incident (results : List ChunkResult) :
    Except String MergedDict :=
  Except.ok (merge_incident_results 5 results)


/-! ## The chunk planner (`get_audio_chunks`,
`groq_service.py` 23-68 = `groq_client.py` 22-65)

Times are integral milliseconds, as in the source (`duration_ms = len(audio)`
is an `int`, `start`/`end` are `int`s).  A chunk records the sliced range
`audio[start:end]` and the `is_temp` flag; the exported `start_offset_sec`
is `startMs / 1000`. -/

/-- One planned chunk: the time range `[startMs, endMs)` of the slice
`audio[start:end]` plus the `is_temp` flag of the emitted dict. -/
structure Chunk where
  startMs : ℤ
  endMs : ℤ
  is_temp : Bool
  deriving DecidableEq, Repr

/-- The `while start < duration_ms` loop of lines 47-66, fuel-indexed:
`none` means the loop did not finish within `fuel` iterations.  Each
iteration emits the chunk `[start, min(start+chunk_duration_ms, D))`,
breaks when that end hits `D`, and otherwise advances `start` by
`chunk_duration_ms - overlap_ms`. -/
def chunkLoop (chunkDurationMs overlapMs durationMs : ℤ) :
    Nat → ℤ → Option (List Chunk)
  | 0, _ => none
  | fuel + 1, start =>
    if start < durationMs then
      if min (start + chunkDurationMs) durationMs = durationMs then
        some [⟨start, min (start + chunkDurationMs) durationMs, true⟩]
      else
        match chunkLoop chunkDurationMs overlapMs durationMs fuel
            (start + (chunkDurationMs - overlapMs)) with
        | some cs =>
            some (⟨start, min (start + chunkDurationMs) durationMs, true⟩ :: cs)
        | none => none
    else some []

/-- `get_audio_chunks(file_path, max_size_mb, overlap_sec)` (lines 23-68),
with the audio file abstracted to its byte size and duration.  Below the
size limit the whole file is one non-temp chunk covering `[0, D)`.
Otherwise `chunk_duration_ms = int(max_size_mb * 0.9 * ms_per_mb)` with
`ms_per_mb = duration_ms / (file_size / 2**20)`; the `int(...)` truncation
of the (positive) float value is embedded as the exact rational floor
`(9 * max_size_mb * 2^20 * duration_ms) // (10 * file_size)`.  The function
raises no `ConfigurationError` anywhere: the only exit paths are the loop's
two exits, hence the fuel-indexed `Option`. -/
def get_audio_chunks (fileSize durationMs maxSizeMb overlapSec : ℤ)
    (fuel : Nat) : Option (List Chunk) :=
  if fileSize < maxSizeMb * 1024 * 1024 then some [⟨0, durationMs, false⟩]
  else
    chunkLoop (Int.ediv (9 * maxSizeMb * 1048576 * durationMs) (10 * fileSize))
      (overlapSec * 1000) durationMs fuel 0


/-! ## The workflow engine (modelled from the spec)

`WorkflowExecutor` (`Executor/src/workflowexecutor.py`) delegates node
execution, retry and checkpointed resumption to a third-party graph
framework: `_build_graph` (lines 66-85) only declares the fixed chain
`extract_audio → transcribe → generate_tasks` with
`retry_policy = {"max_attempts": 3, "backoff_factor": 2}` on a node, and
`handle_incident_upload` (lines 89-152) fires `workflow.ainvoke` with
`thread_id = incident_id` against the durable checkpointer.  The execution
semantics themselves are not in the sources, so they are modelled from the
spec (§4.5-§4.6): each node's delegate is retried up to `max_attempts`
(backoff only delays, so wall-clock waiting is not modelled); on success the
engine advances down the fixed chain, on exhaustion the run fails recording
the last error and no further node executes; `start` with an existing
checkpoint re-enters at the checkpointed node with the checkpointed state. -/

/-- The three graph nodes declared by `_build_graph`. -/
inductive NodeName where
  | extract_audio
  | transcribe
  | generate_tasks
  deriving DecidableEq, Repr

/-- Modelled from the spec: `RetryPolicy` (§3) — `max_attempts` plus the
exponential `backoff_base`, whose effect is purely temporal. -/
structure RetryPolicy where
  max_attempts : Nat
  backoff_base : Nat
  deriving DecidableEq, Repr

/-- Modelled from the spec: an engine configuration over an abstract run
state `σ`: each node's delegate, observed per attempt number (attempt `n`
is the delegate's n-th invocation, starting at 1), and each node's retry
policy. -/
structure EngineConfig (σ : Type) where
  delegates : NodeName → Nat → σ → Except String σ
  policy : NodeName → RetryPolicy

/-- Modelled from the spec: run a single node's delegate with retry.
Returns the number of delegate invocations made and the final outcome;
`remaining` counts the attempts still allowed, `attempt` numbers the next
invocation. -/
def attemptLoop (d : Nat → σ → Except String σ) :
    Nat → Nat → σ → Nat × Except String σ
  | _, 0, _ => (0, Except.error "no attempts allowed")
  | attempt, remaining + 1, s =>
    match d attempt s with
    | Except.ok s' => (1, Except.ok s')
    | Except.error e =>
        match remaining with
        | 0 => (1, Except.error e)
        | r + 1 =>
            let rest := attemptLoop d (attempt + 1) (r + 1) s
            (rest.1 + 1, rest.2)

/-- Modelled from the spec: execute one node with its retry policy. -/
def runNode (d : Nat → σ → Except String σ) (max_attempts : Nat) (s : σ) :
    Nat × Except String σ :=
  attemptLoop d 1 max_attempts s

/-- Outcome of a workflow run: completed with a final state, or failed at a
node with the last recorded error. -/
inductive RunOutcome (σ : Type) where
  | completed (s : σ)
  | failed (node : NodeName) (err : String)

/-- The fixed node chain from a given entry node
(`extract_audio → transcribe → generate_tasks`, `_build_graph` lines 79-82). -/
def nodesFrom : NodeName → List NodeName
  | NodeName.extract_audio =>
      [NodeName.extract_audio, NodeName.transcribe, NodeName.generate_tasks]
  | NodeName.transcribe => [NodeName.transcribe, NodeName.generate_tasks]
  | NodeName.generate_tasks => [NodeName.generate_tasks]

/-- Modelled from the spec: run the listed nodes in order, threading the
state; returns the invocation trace (node, number of delegate invocations)
and the outcome.  After a node exhausts its retries the run fails there and
no further node executes. -/
def runFrom (cfg : EngineConfig σ) :
    List NodeName → σ → List (NodeName × Nat) × RunOutcome σ
  | [], s => ([], RunOutcome.completed s)
  | n :: rest, s =>
    match runNode (cfg.delegates n) (cfg.policy n).max_attempts s with
    | (k, Except.ok s') =>
        let next := runFrom cfg rest s'
        ((n, k) :: next.1, next.2)
    | (k, Except.error e) => ([(n, k)], RunOutcome.failed n e)

/-- Modelled from the spec: `start(incident_id, initial_state)` (§4.5) for
one incident — the checkpoint store is the incident's current entry.  With
an existing checkpoint `(node, state)` the run re-enters at `node` with
`state`; otherwise it runs the whole chain on the initial state. -/
def engineStart (cfg : EngineConfig σ) (checkpoint : Option (NodeName × σ))
    (initial : σ) : List (NodeName × Nat) × RunOutcome σ :=
  match checkpoint with
  | some (node, s) => runFrom cfg (nodesFrom node) s
  | none => runFrom cfg (nodesFrom NodeName.extract_audio) initial

/-! ## Status projection (`get_status`, `workflowexecutor.py` 195-238) -/

/-- The snapshot `get_status` reads from the checkpointer
(`state = await self.workflow.aget_state(config)`): `next` is the list of
nodes about to run, `values` the accumulated state mapping.  A thread with
no checkpoint reads back as the empty snapshot (`next = []`,
`values = []`). -/
structure GraphState where
  next : List String
  values : List (String × String)

/-- The caller-facing response dict of lines 233-238. -/
structure StatusResponse where
  status : String
  display_message : String
  is_finished : Bool
  deriving DecidableEq, Repr

/-- The static message table of lines 226-231 together with its
`messages.get(current_node, "Processing...")` default. -/
def statusMessage (node : String) : String :=
  if node = "extract_audio" then "Extracting audio from video..."
  else if node = "transcribe" then "AI is transcribing speech..."
  else if node = "generate_tasks" then "Generating inspection tasks..."
  else "Processing..."

/-- The status derivation of lines 211-238: empty `next` means the graph
reached `END` — empty `values` then means not started (`queued`), non-empty
means `completed`; otherwise the status key is the first node of `next`,
with its display message looked up in the static table.
`is_finished = (status_key == "completed")` (line 237). -/
def deriveStatus (st : GraphState) : StatusResponse :=
  match st.next with
  | [] =>
    if st.values.isEmpty then
      ⟨"queued", "Incident is in queue for processing...",
        "queued" == "completed"⟩
    else
      ⟨"completed", "Analysis complete! Tasks generated.",
        "completed" == "completed"⟩
  | current_node :: _ =>
      ⟨current_node, statusMessage current_node, current_node == "completed"⟩

/-- Modelled from the spec: `IncidentRepository.get_incident_progress`, the
lookup `get_status` calls at line 202, is not among the sources
(`DataStore/database.py` defines the analogous RLS-scoped `get_incident`:
every query runs in a session pinned to `app.current_company_id`, so a row
of another company is invisible).  The incident table is abstracted to
`incident_id ↦ owning company`; the lookup returns the row only when it
exists and its owner matches the querying company. -/
def get_incident_progress (table : List (String × Int)) (company_id : Int)
    (incident_id : String) : Option (String × Int) :=
  match table.find? (fun p => p.1 == incident_id) with
  | some p => if p.2 == company_id then some p else none
  | none => none

/-- The observable outcome of `get_status(company_id, incident_id)`
(lines 195-238): a falsy lookup — row absent or owned by another company —
raises `PermissionError("Unauthorized: Incident does not belong to your
company.")` (lines 202-204); otherwise the response is projected from the
checkpoint snapshot. -/
def get_status (table : List (String × Int)) (company_id : Int)
    (incident_id : String) (st : GraphState) : Except String StatusResponse :=
  match get_incident_progress table company_id incident_id with
  | none =>
      Except.error "Unauthorized: Incident does not belong to your company."
  | some _ => Except.ok (deriveStatus st)

/-! ## Merger lemmas -/

lemma keepSegment_zero (lastEnd : ℚ) (s : TranscriptSegment) :
    keepSegment 0 lastEnd s = true := by
  simp [keepSegment]

lemma filter_keepSegment_zero (lastEnd : ℚ) (l : List TranscriptSegment) :
    l.filter (keepSegment 0 lastEnd) = l :=
  List.filter_eq_self.mpr fun a _ => keepSegment_zero lastEnd a

/-- Every segment in the merge accumulator's output is either from the
incoming accumulator or from one of the remaining chunk results. -/
lemma mergeGo_segments_mem (rs : List ChunkResult) :
    ∀ (i : Nat) (lastEnd : ℚ) (tx : String) (acc : List TranscriptSegment)
      (s : TranscriptSegment), s ∈ (mergeGo i lastEnd tx acc rs).2.1 →
      s ∈ acc ∨ ∃ cr ∈ rs, s ∈ cr.segments := by
  induction rs with
  | nil => intro i le tx acc s hs; exact Or.inl hs
  | cons r rs ih =>
    intro i le tx acc s hs
    rcases hk : (r.segments.filter (keepSegment i le)).getLast? with _ | lk
    · simp only [mergeGo, hk] at hs
      rcases ih (i + 1) le tx acc s hs with h | ⟨cr, hcr, hscr⟩
      · exact Or.inl h
      · exact Or.inr ⟨cr, List.mem_cons_of_mem r hcr, hscr⟩
    · simp only [mergeGo, hk] at hs
      rcases ih _ _ _ _ s hs with h | ⟨cr, hcr, hscr⟩
      · rcases List.mem_append.mp h with h' | h'
        · exact Or.inl h'
        · exact Or.inr ⟨r, List.mem_cons_self r rs,
            (List.mem_filter.mp h').1⟩
      · exact Or.inr ⟨cr, List.mem_cons_of_mem r hcr, hscr⟩

/-- The merge accumulator only ever appends: its output extends the
incoming accumulator. -/
lemma mergeGo_acc_extends (rs : List ChunkResult) :
    ∀ (i : Nat) (lastEnd : ℚ) (tx : String) (acc : List TranscriptSegment),
      ∃ tl, (mergeGo i lastEnd tx acc rs).2.1 = acc ++ tl := by
  induction rs with
  | nil => intro i le tx acc; exact ⟨[], (List.append_nil acc).symm⟩
  | cons r rs ih =>
    intro i le tx acc
    rcases hk : (r.segments.filter (keepSegment i le)).getLast? with _ | lk
    · simpa only [mergeGo, hk] using ih (i + 1) le tx acc
    · obtain ⟨tl, htl⟩ := ih (i + 1) lk.stop
        (tx ++ " " ++ joinTexts (r.segments.filter (keepSegment i le)))
        (acc ++ r.segments.filter (keepSegment i le))
      refine ⟨r.segments.filter (keepSegment i le) ++ tl, ?_⟩
      simp only [mergeGo, hk, htl, List.append_assoc]

/-- A chunk list all of whose results carry empty segment lists leaves the
merge accumulators untouched. -/
lemma mergeGo_of_empty_segments (rs : List ChunkResult) :
    ∀ (i : Nat) (lastEnd : ℚ) (tx : String) (acc : List TranscriptSegment),
      (∀ r ∈ rs, r.segments = []) →
      mergeGo i lastEnd tx acc rs = (tx, acc, lastEnd) := by
  induction rs with
  | nil => intro i le tx acc _; rfl
  | cons r rs ih =>
    intro i le tx acc h
    have hr : r.segments = [] := h r (List.mem_cons_self r rs)
    have hk : (r.segments.filter (keepSegment i le)).getLast? = none := by
      rw [hr]; rfl
    simp only [mergeGo, hk]
    exact ih (i + 1) le tx acc fun r' hr' => h r' (List.mem_cons_of_mem r hr')

/-! ## Claim C1 — merger behaviour at the overlap cut -/

/-- C1 counterexample: with chunk 1's last segment ending at 10.2 s and
chunk 2's first segment starting at 10.0 s, the claim says that segment is
dropped; under the code's rule (drop iff `start < last_end_time - 0.5`,
i.e. `10.0 < 9.7`, false) it is kept — it appears in the merged segment
list. -/
theorem c1_counterexample :
    (⟨10, 54/5, "beta"⟩ : TranscriptSegment) ∈
      mergedSegments
        [⟨[⟨9, 51/5, "alpha"⟩], "alpha", some "en", none⟩,
         ⟨[⟨10, 54/5, "beta"⟩], "beta", none, none⟩] := by
  norm_num [mergedSegments, mergeGo, keepSegment, joinTexts, List.filter]

/-- C1 (corrected): with chunk 1's last surviving segment ending at
10.2 s, a chunk-2 first segment starting at 10.0 s is kept
(`10.0 ≥ 10.2 - 0.5`), one starting at 10.9 s is kept, and a chunk-2
segment is dropped exactly when it starts before 9.7 s — e.g. one starting
at 9.6 s. -/
theorem c1_overlap_cut :
    mergedSegments
        [⟨[⟨9, 51/5, "alpha"⟩], "alpha", some "en", none⟩,
         ⟨[⟨10, 54/5, "beta"⟩], "beta", none, none⟩] =
      [⟨9, 51/5, "alpha"⟩, ⟨10, 54/5, "beta"⟩] ∧
    mergedSegments
        [⟨[⟨9, 51/5, "alpha"⟩], "alpha", some "en", none⟩,
         ⟨[⟨109/10, 12, "gamma"⟩], "gamma", none, none⟩] =
      [⟨9, 51/5, "alpha"⟩, ⟨109/10, 12, "gamma"⟩] ∧
    mergedSegments
        [⟨[⟨9, 51/5, "alpha"⟩], "alpha", some "en", none⟩,
         ⟨[⟨48/5, 21/2, "delta"⟩], "delta", none, none⟩] =
      [⟨9, 51/5, "alpha"⟩] := by
  refine ⟨?_, ?_, ?_⟩
  · norm_num [mergedSegments, mergeGo, keepSegment, joinTexts, List.filter]
  · norm_num [mergedSegments, mergeGo, keepSegment, joinTexts, List.filter]
  · norm_num [mergedSegments, mergeGo, keepSegment, joinTexts, List.filter]
    rfl

/-! ## Claim C3 — the pipeline never raises -/

/-- C3 counterexample: the claim says `process_incident` raises a hard
failure when every chunk's result carries an error tag; on an input where
both chunks errored it instead returns the merged best-effort result
normally. -/
theorem c3_counterexample :
    process_incident [errorChunkResult "boom", errorChunkResult "bang"] =
      Except.ok (MergedDict.full "" [] "en" 0) := by
  norm_num [process_incident, merge_incident_results, mergeGo, keepSegment,
    errorChunkResult, lastChunkDuration, pyStrip]

/-- C3 (corrected): the pipeline never raises a hard failure — for every
list of per-chunk results it returns the merged result, and in particular
when every chunk errored (each result tagged with an error and carrying no
segments) it returns a merged mapping with empty text, empty segments and
duration 0 rather than raising. -/
theorem c3_never_raises (results : List ChunkResult) :
    process_incident results = Except.ok (merge_incident_results 5 results) ∧
    ((∀ r ∈ results, r.segments = [] ∧ r.error.isSome) → results ≠ [] →
      ∃ l, process_incident results = Except.ok (MergedDict.full "" [] l 0)) := by
  refine ⟨rfl, fun hall hne => ?_⟩
  rcases results with _ | ⟨r0, rs⟩
  · exact absurd rfl hne
  · refine ⟨r0.language.getD "en", ?_⟩
    have hempty : ∀ r ∈ r0 :: rs, r.segments = [] := fun r hr => (hall r hr).1
    have hgo := mergeGo_of_empty_segments (r0 :: rs) 0 0 "" [] hempty
    have hdur : lastChunkDuration (r0 :: rs) = 0 := by
      rcases hlast : (r0 :: rs).getLast? with _ | lr
      · simp [lastChunkDuration, hlast]
      · have : lr.segments = [] :=
          hempty lr (List.mem_of_getLast?_eq_some hlast)
        simp [lastChunkDuration, hlast, this]
    simp [process_incident, merge_incident_results, hgo, hdur, pyStrip]

/-- C3 witness: the corrected claim at a concrete all-errored input. -/
theorem c3_witness :
    ∃ l, process_incident [errorChunkResult "w"] =
      Except.ok (MergedDict.full "" [] l 0) :=
  (c3_never_raises [errorChunkResult "w"]).2 (by decide) (by decide)

/-! ## Claim C5 — ordering of the merged segment list -/

/-- C5 counterexample: the merged segment list is not strictly ordered by
start time, and segment ranges may overlap: with chunk 1 = `[10.0, 10.2)`
and chunk 2 = `[9.8, 11.0)` (kept, since `9.8 ≥ 10.2 - 0.5`), the merged
list is `[[10.0,10.2), [9.8,11.0)]`. -/
theorem c5_counterexample :
    ¬ List.Pairwise
        (fun a b : TranscriptSegment => a.start < b.start ∧ a.stop ≤ b.start)
        (mergedSegments
          [⟨[⟨10, 51/5, "a"⟩], "a", some "en", none⟩,
           ⟨[⟨49/5, 11, "b"⟩], "b", none, none⟩]) := by
  have hm : mergedSegments
      [⟨[⟨10, 51/5, "a"⟩], "a", some "en", none⟩,
       ⟨[⟨49/5, 11, "b"⟩], "b", none, none⟩] =
      [⟨10, 51/5, "a"⟩, ⟨49/5, 11, "b"⟩] := by
    norm_num [mergedSegments, mergeGo, keepSegment, joinTexts, List.filter]
  rw [hm]
  intro h
  have := (List.pairwise_cons.mp h).1 ⟨49/5, 11, "b"⟩ (by simp)
  norm_num at this

/-- C5 (corrected): the merged segment list need not be strictly ordered
nor overlap-free; what holds is that every merged segment originates from
one of the input chunk results, and the first chunk's segments are kept
verbatim as a prefix of the merged list. -/
theorem c5_merged_segments (r : ChunkResult) (rs : List ChunkResult) :
    (∀ s ∈ mergedSegments (r :: rs), ∃ cr ∈ r :: rs, s ∈ cr.segments) ∧
    ∃ tl, mergedSegments (r :: rs) = r.segments ++ tl := by
  constructor
  · intro s hs
    rcases mergeGo_segments_mem (r :: rs) 0 0 "" [] s hs with h | h
    · exact absurd h (List.not_mem_nil s)
    · exact h
  · unfold mergedSegments
    have hfk := filter_keepSegment_zero (0 : ℚ) r.segments
    rcases hk : r.segments.getLast? with _ | lk
    · have hr : r.segments = [] := List.getLast?_eq_none_iff.mp hk
      obtain ⟨tl, htl⟩ := mergeGo_acc_extends rs 1 0 "" []
      rw [List.nil_append] at htl
      refine ⟨tl, ?_⟩
      simp only [mergeGo, hfk, hk, hr, List.nil_append]
      exact htl
    · obtain ⟨tl, htl⟩ := mergeGo_acc_extends rs 1 lk.stop
        ("" ++ " " ++ joinTexts r.segments) r.segments
      refine ⟨tl, ?_⟩
      simp only [mergeGo, hfk, hk, List.nil_append]
      exact htl

/-- C5 witness: the corrected claim at a concrete one-chunk input. -/
theorem c5_witness :
    (∃ cr ∈ [(⟨[⟨1, 2, "w"⟩], "w", none, none⟩ : ChunkResult)],
      (⟨1, 2, "w"⟩ : TranscriptSegment) ∈ cr.segments) ∧
    ∃ tl, mergedSegments [(⟨[⟨1, 2, "w"⟩], "w", none, none⟩ : ChunkResult)] =
      (⟨[⟨1, 2, "w"⟩], "w", none, none⟩ : ChunkResult).segments ++ tl := by
  have h := c5_merged_segments (⟨[⟨1, 2, "w"⟩], "w", none, none⟩ : ChunkResult) []
  exact ⟨h.1 ⟨1, 2, "w"⟩ (by
    norm_num [mergedSegments, mergeGo, keepSegment, joinTexts, List.filter]),
    h.2⟩

/-! ## Claim C10 — merger output shape -/

/-- C10 (confirmed): on the empty result list the merger returns the bare
empty mapping; on any non-empty list it returns a mapping with all four of
the text/segments/language/duration fields, the language defaulting to
"en" when the first result has none, and the duration defaulting to 0 when
the last result's segment list is empty. -/
theorem c10_merge_shape (overlap_sec : ℤ) (r : ChunkResult)
    (rs : List ChunkResult) :
    merge_incident_results overlap_sec [] = MergedDict.empty ∧
    ∃ t segs d,
      merge_incident_results overlap_sec (r :: rs) =
        MergedDict.full t segs (r.language.getD "en") d ∧
      ∀ lr, (r :: rs).getLast? = some lr → lr.segments = [] → d = 0 := by
  refine ⟨rfl, ?_⟩
  refine ⟨pyStrip (mergeGo 0 0 "" [] (r :: rs)).1,
    (mergeGo 0 0 "" [] (r :: rs)).2.1, lastChunkDuration (r :: rs), rfl, ?_⟩
  intro lr hlr hseg
  simp [lastChunkDuration, hlr, hseg]

/-- C10 witness: the merger's shape at concrete inputs. -/
theorem c10_witness :
    merge_incident_results 5 [] = MergedDict.empty ∧
    ∃ t segs, merge_incident_results 5 [errorChunkResult "w"] =
      MergedDict.full t segs "en" 0 := by
  obtain ⟨h1, t, segs, d, h2, h3⟩ :=
    c10_merge_shape 5 (errorChunkResult "w") []
  exact ⟨h1, t, segs, by
    rw [h3 (errorChunkResult "w") rfl rfl] at h2; exact h2⟩

/-! ## Workflow-engine lemmas -/

/-- Every node in a run's invocation trace is one of the nodes it was asked
to run. -/
lemma runFrom_trace_subset {σ : Type} (cfg : EngineConfig σ) :
    ∀ (nodes : List NodeName) (s : σ) (p : NodeName × Nat),
      p ∈ (runFrom cfg nodes s).1 → p.1 ∈ nodes := by
  intro nodes
  induction nodes with
  | nil => intro s p hp; simp [runFrom] at hp
  | cons n rest ih =>
    intro s p hp
    rcases hr : runNode (cfg.delegates n) (cfg.policy n).max_attempts s
      with ⟨k, r⟩
    cases r with
    | ok s' =>
      simp only [runFrom, hr] at hp
      rcases List.mem_cons.mp hp with h | h
      · rw [h]; exact List.mem_cons_self n rest
      · exact List.mem_cons_of_mem n (ih s' p h)
    | error e =>
      simp only [runFrom, hr, List.mem_singleton] at hp
      rw [hp]; exact List.mem_cons_self n rest

/-- A non-empty node list's invocation trace starts with its first node. -/
lemma runFrom_trace_head {σ : Type} (cfg : EngineConfig σ) (n : NodeName)
    (rest : List NodeName) (s : σ) :
    (runFrom cfg (n :: rest) s).1.head?.map Prod.fst = some n := by
  rcases hr : runNode (cfg.delegates n) (cfg.policy n).max_attempts s
    with ⟨k, r⟩
  cases r <;> simp [runFrom, hr]

/-! ## Claim C6 — idempotent resumption -/

/-- C6 (confirmed, engine modelled from the spec): starting a run whose
checkpoint is at `transcribe` never invokes the `extract_audio` delegate —
the invocation trace contains no `extract_audio` entry and re-enters at
`transcribe`. -/
theorem c6_idempotent_resumption {σ : Type} (cfg : EngineConfig σ)
    (s0 initial : σ) :
    ((engineStart cfg (some (NodeName.transcribe, s0)) initial).1.all
      (fun p => p.1 != NodeName.extract_audio)) = true ∧
    (engineStart cfg (some (NodeName.transcribe, s0)) initial).1.head?.map
      Prod.fst = some NodeName.transcribe := by
  constructor
  · rw [List.all_eq_true]
    intro p hp
    have hmem := runFrom_trace_subset cfg (nodesFrom NodeName.transcribe) s0 p
      (by simpa [engineStart] using hp)
    simp only [nodesFrom, List.mem_cons, List.mem_singleton,
      List.not_mem_nil, or_false] at hmem
    rcases hmem with h | h <;> rw [h] <;> decide
  · simpa [engineStart, nodesFrom] using
      runFrom_trace_head cfg NodeName.transcribe [NodeName.generate_tasks] s0

/-! ## Claim C7 — per-node retry -/

/-- C7 (confirmed, engine modelled from the spec): with `max_attempts = 3`,
a delegate failing on attempts 1 and 2 and succeeding on attempt 3 yields
node success with exactly 3 delegate invocations; and a node whose retries
are exhausted makes the run fail at that node, recording the last error,
with no further node executing (the trace is that single node). -/
theorem c7_retry {σ : Type} (cfg : EngineConfig σ)
    (d : Nat → σ → Except String σ) (s : σ) (e1 e2 : String) (s3 : σ)
    (hf1 : d 1 s = Except.error e1) (hf2 : d 2 s = Except.error e2)
    (hs3 : d 3 s = Except.ok s3)
    (n : NodeName) (rest : List NodeName) (s' : σ) (k : Nat) (e : String)
    (hexh : runNode (cfg.delegates n) (cfg.policy n).max_attempts s' =
      (k, Except.error e)) :
    runNode d 3 s = (3, Except.ok s3) ∧
    runFrom cfg (n :: rest) s' = ([(n, k)], RunOutcome.failed n e) := by
  constructor
  · show attemptLoop d 1 3 s = (3, Except.ok s3)
    rw [show (3:Nat) = 2 + 1 from rfl]
    simp [attemptLoop, hf1, hf2, hs3]
  · simp only [runFrom, hexh]

/-- C7 witness: the retry behaviour at a concrete delegate (fails on
attempts 1 and 2, succeeds on 3) and a concrete always-failing engine. -/
theorem c7_witness :
    runNode (fun a (s : Nat) => if a = 3 then Except.ok s else
      Except.error "flake") 3 0 = (3, Except.ok 0) ∧
    runFrom (⟨fun _ _ _ => Except.error "boom", fun _ => ⟨3, 2⟩⟩ :
        EngineConfig Nat) [NodeName.extract_audio] 0 =
      ([(NodeName.extract_audio, 3)],
        RunOutcome.failed NodeName.extract_audio "boom") :=
  c7_retry (⟨fun _ _ _ => Except.error "boom", fun _ => ⟨3, 2⟩⟩ :
      EngineConfig Nat)
    (fun a (s : Nat) => if a = 3 then Except.ok s else Except.error "flake")
    0 "flake" "flake" 0 rfl rfl rfl NodeName.extract_audio [] 0 3 "boom" rfl

/-! ## Claim C8 — status projection -/

/-- C8 (confirmed): the empty snapshot (no checkpoint) projects to
`queued`; an ended graph with non-empty state projects to `completed`;
otherwise the status is the first pending node's name with its static
table message — `transcribe` mapping to the transcribing message — and an
unmapped node falling back to the generic processing message. -/
theorem c8_status_projection (vals : List (String × String)) (node : String)
    (rest : List String) :
    deriveStatus ⟨[], []⟩ =
      ⟨"queued", "Incident is in queue for processing...", false⟩ ∧
    (vals ≠ [] → deriveStatus ⟨[], vals⟩ =
      ⟨"completed", "Analysis complete! Tasks generated.", true⟩) ∧
    deriveStatus ⟨node :: rest, vals⟩ =
      ⟨node, statusMessage node, node == "completed"⟩ ∧
    statusMessage "transcribe" = "AI is transcribing speech..." ∧
    (node ∉ ["extract_audio", "transcribe", "generate_tasks"] →
      statusMessage node = "Processing...") := by
  refine ⟨by decide, fun hv => ?_, rfl, by decide, fun hn => ?_⟩
  · have : vals.isEmpty = false := by
      rcases vals with _ | ⟨v, vs⟩
      · exact absurd rfl hv
      · rfl
    simp [deriveStatus, this]
  · simp only [List.mem_cons, List.mem_singleton, List.not_mem_nil,
      or_false, not_or] at hn
    obtain ⟨h1, h2, h3⟩ := hn
    simp [statusMessage, h1, h2, h3]

/-- C8 witness: the projection at concrete snapshots. -/
theorem c8_witness :
    deriveStatus ⟨[], [("transcript", "t")]⟩ =
      ⟨"completed", "Analysis complete! Tasks generated.", true⟩ ∧
    statusMessage "mystery_node" = "Processing..." := by
  obtain ⟨h1, h2, h3, h4, h5⟩ :=
    c8_status_projection [("transcript", "t")] "mystery_node" []
  exact ⟨h2 (by decide), h5 (by decide)⟩

/-! ## Claim C9 — no existence leak -/

/-- C9 (confirmed; the repository lookup is modelled from the spec, i.e.
the RLS-scoped row filter): `get_status` for an incident that does not
exist and `get_status` for an incident owned by a different company take
the same falsy-lookup path and produce the identical error — the two
situations are observationally indistinguishable to the caller. -/
theorem c9_no_existence_leak (t1 t2 : List (String × Int)) (cid : Int)
    (iid : String) (st1 st2 : GraphState)
    (h1 : t1.find? (fun p => p.1 == iid) = none)
    (h2 : ∀ p ∈ t2, p.1 = iid → p.2 ≠ cid) :
    get_status t1 cid iid st1 = get_status t2 cid iid st2 ∧
    get_status t1 cid iid st1 =
      Except.error
        "Unauthorized: Incident does not belong to your company." := by
  have l1 : get_incident_progress t1 cid iid = none := by
    simp [get_incident_progress, h1]
  have l2 : get_incident_progress t2 cid iid = none := by
    unfold get_incident_progress
    rcases hf : t2.find? (fun p => p.1 == iid) with _ | p
    · simp [hf]
    · have hp1 : p.1 = iid := by
        have := List.find?_some hf
        simpa using this
      have hp2 : p.2 ≠ cid := h2 p (List.mem_of_find?_eq_some hf) hp1
      simp [hf, hp2]
  constructor
  · simp [get_status, l1, l2]
  · simp [get_status, l1]

/-- C9 witness: a missing incident and a foreign-owned incident yield the
identical outcome. -/
theorem c9_witness :
    get_status [] 1 "inc-1" ⟨[], []⟩ =
      get_status [("inc-1", 2)] 1 "inc-1" ⟨[], []⟩ ∧
    get_status [] 1 "inc-1" ⟨[], []⟩ =
      Except.error
        "Unauthorized: Incident does not belong to your company." :=
  c9_no_existence_leak [] [("inc-1", 2)] 1 "inc-1" ⟨[], []⟩ ⟨[], []⟩
    rfl (by decide)

/-! ## Planner lemmas -/

/-- With a non-positive step (`chunk_duration_ms - overlap_ms ≤ 0`) the
planner's loop never terminates from any position whose chunk ends
strictly before the total duration: every fuel bound is exhausted.  This
is the `while` loop's divergence, phrased fuel-indexed. -/
lemma chunkLoop_noTerm (cd ov D : ℤ) (hstep : cd - ov ≤ 0) :
    ∀ (fuel : Nat) (start : ℤ), start < D → start + cd < D →
      chunkLoop cd ov D fuel start = none := by
  intro fuel
  induction fuel with
  | zero => intro start _ _; rfl
  | succ f ih =>
    intro start h1 h2
    have hmin : min (start + cd) D = start + cd := min_eq_left (le_of_lt h2)
    have hne : ¬ (min (start + cd) D = D) := by
      rw [hmin]; exact ne_of_lt h2
    have hrec := ih (start + (cd - ov)) (by linarith) (by linarith)
    simp only [chunkLoop, if_pos h1, if_neg hne, hrec]

/-- Invariants of a terminating planner loop run from `start`:
emptiness above the duration, the shape of the head chunk, each chunk's
range equation, the final chunk ending exactly at the duration, the
adjacency chain, and positivity of the step whenever at least two chunks
were produced. -/
lemma chunkLoop_spec (cd ov D : ℤ) (hov : 0 ≤ ov) :
    ∀ (fuel : Nat) (start : ℤ) (cs : List Chunk),
      chunkLoop cd ov D fuel start = some cs →
      (D ≤ start → cs = []) ∧
      (start < D → ∃ tl, cs = ⟨start, min (start + cd) D, true⟩ :: tl) ∧
      (∀ c ∈ cs, c.startMs < D ∧ c.endMs = min (c.startMs + cd) D) ∧
      (start < D → ∃ cl, cs.getLast? = some cl ∧ cl.endMs = D) ∧
      List.Chain' (fun a b : Chunk => a.endMs = a.startMs + cd ∧
        a.endMs < D ∧ b.startMs = a.startMs + (cd - ov)) cs ∧
      (∀ a b tl2, cs = a :: b :: tl2 → 0 < cd - ov) := by
  intro fuel
  induction fuel with
  | zero => intro start cs h; exact absurd h (by simp [chunkLoop])
  | succ f ih =>
    intro start cs h
    by_cases h1 : start < D
    · by_cases hmin : min (start + cd) D = D
      · have hcs : cs = [⟨start, min (start + cd) D, true⟩] := by
          simp only [chunkLoop, if_pos h1, if_pos hmin,
            Option.some.injEq] at h
          exact h.symm
        subst hcs
        refine ⟨fun hD => absurd h1 (not_lt.mpr hD), fun _ => ⟨[], rfl⟩,
          ?_, fun _ => ⟨⟨start, min (start + cd) D, true⟩, rfl, hmin⟩,
          List.chain'_singleton _, ?_⟩
        · intro c hc
          rw [List.mem_singleton] at hc
          subst hc
          exact ⟨h1, rfl⟩
        · intro a b tl2 habs
          simp at habs
      · rcases hrec : chunkLoop cd ov D f (start + (cd - ov)) with _ | cs'
        · rw [show chunkLoop cd ov D (f + 1) start =
            (match chunkLoop cd ov D f (start + (cd - ov)) with
              | some cs =>
                  some (⟨start, min (start + cd) D, true⟩ :: cs)
              | none => none) from by
              simp only [chunkLoop, if_pos h1, if_neg hmin], hrec] at h
          exact absurd h (by simp)
        · have hcs : cs = ⟨start, min (start + cd) D, true⟩ :: cs' := by
            rw [show chunkLoop cd ov D (f + 1) start =
              (match chunkLoop cd ov D f (start + (cd - ov)) with
                | some cs =>
                    some (⟨start, min (start + cd) D, true⟩ :: cs)
                | none => none) from by
                simp only [chunkLoop, if_pos h1, if_neg hmin], hrec] at h
            simp only [Option.some.injEq] at h
            exact h.symm
          subst hcs
          obtain ⟨ih1, ih2, ih3, ih4, ih5, ih6⟩ := ih _ _ hrec
          have hlt : start + cd < D := by
            rcases lt_or_le (start + cd) D with h' | h'
            · exact h'
            · exact absurd (min_eq_right h') hmin
          have hminl : min (start + cd) D = start + cd :=
            min_eq_left (le_of_lt hlt)
          have hstart' : start + (cd - ov) < D := by linarith
          obtain ⟨tl', hcs'⟩ := ih2 hstart'
          refine ⟨fun hD => absurd h1 (not_lt.mpr hD),
            fun _ => ⟨cs', rfl⟩, ?_, ?_, ?_, ?_⟩
          · intro c hc
            rcases List.mem_cons.mp hc with h' | h'
            · subst h'; exact ⟨h1, rfl⟩
            · exact ih3 c h'
          · intro _
            obtain ⟨cl, hcl, hclD⟩ := ih4 hstart'
            refine ⟨cl, ?_, hclD⟩
            rw [hcs'] at hcl ⊢
            rw [List.getLast?_cons_cons]
            exact hcl
          · rw [hcs']
            refine List.chain'_cons.mpr ⟨⟨?_, ?_, ?_⟩, ?_⟩
            · exact hminl
            · rw [hminl]; exact hlt
            · rfl
            · rw [← hcs']; exact ih5
          · intro a b tl2 _
            by_contra hns
            push_neg at hns
            have := chunkLoop_noTerm cd ov D (by linarith) f
              (start + (cd - ov)) hstart' (by linarith)
            rw [this] at hrec
            exact absurd hrec (by simp)
    · have hcs : cs = [] := by
        simp only [chunkLoop, if_neg h1, Option.some.injEq] at h
        exact h.symm
      subst hcs
      exact ⟨fun _ => rfl, fun h' => absurd h' h1, by simp,
        fun h' => absurd h' h1, List.chain'_nil, by simp⟩

/-- Interval sweep: a chunk list whose head starts at or before `t`, whose
last chunk ends after `t`, and whose adjacent chunks leave no gap, covers
`t`. -/
lemma chunks_cover_sweep :
    ∀ (cs : List Chunk) (c0 cl : Chunk) (t : ℤ),
      cs.head? = some c0 → cs.getLast? = some cl →
      List.Chain' (fun a b : Chunk => b.startMs ≤ a.endMs) cs →
      c0.startMs ≤ t → t < cl.endMs →
      ∃ c ∈ cs, c.startMs ≤ t ∧ t < c.endMs := by
  intro cs
  induction cs with
  | nil => intro c0 cl t h0 _ _ _ _; simp at h0
  | cons c cs ih =>
    intro c0 cl t h0 hl hch ht0 htl
    have hc0 : c0 = c := by simpa using h0.symm
    rw [hc0] at ht0
    rcases cs with _ | ⟨c', cs'⟩
    · have hcl : cl = c := by simpa using hl.symm
      rw [hcl] at htl
      exact ⟨c, List.mem_cons_self c [], ht0, htl⟩
    · by_cases hte : t < c.endMs
      · exact ⟨c, List.mem_cons_self c _, ht0, hte⟩
      · have hch' := List.chain'_cons.mp hch
        have ht' : c'.startMs ≤ t := le_trans hch'.1 (not_lt.mp hte)
        obtain ⟨cx, hcx, hx1, hx2⟩ := ih c' cl t rfl
          (by simpa using hl) hch'.2 ht' htl
        exact ⟨cx, List.mem_cons_of_mem c hcx, hx1, hx2⟩

/-! ## Claim C2 — non-positive step diverges instead of raising -/

/-- C2 (code_bug): the claim — and the spec — say `get_audio_chunks`
terminates with a `ConfigurationError` when the computed step
`chunk_duration_ms - overlap_ms` is non-positive.  The code contains no
such check (no `ConfigurationError` exists anywhere in the sources): at
the failing input — a file of exactly 25 MiB (at the size limit) lasting
5000 ms, with the default `max_size_mb = 25`, `overlap_sec = 5` — the
computed `chunk_duration_ms` is 4500, the step is `-500`, and the `while`
loop never terminates: the fuel-indexed embedding returns `none` for every
fuel bound. -/
theorem c2_step_nonpositive_diverges (fuel : Nat) :
    get_audio_chunks (25 * 1048576) 5000 25 5 fuel = none := by
  have hsz : ¬ ((25 * 1048576 : ℤ) < 25 * 1024 * 1024) := by decide
  unfold get_audio_chunks
  rw [if_neg hsz]
  have hcd : Int.ediv (9 * 25 * 1048576 * 5000) (10 * (25 * 1048576)) =
      4500 := by decide
  rw [hcd]
  exact chunkLoop_noTerm 4500 (5 * 1000) 5000 (by decide) fuel 0
    (by decide) (by decide)

/-! ## Claim C4 — chunk plan coverage and overlap -/

/-- C4 (confirmed): for an asset at or above the size limit, whenever the
planner terminates with a chunk list, that list covers exactly `[0, D)`
with no gap (pointwise, in milliseconds), its start times are strictly
increasing, and every pair of adjacent chunks overlaps by exactly
`overlap_sec * 1000` ms (the final chunk merely being allowed to be
shorter). -/
theorem c4_chunk_plan (S D M O : ℤ) (fuel : Nat) (cs : List Chunk)
    (hsize : M * 1024 * 1024 ≤ S) (hov : 0 ≤ O)
    (hrun : get_audio_chunks S D M O fuel = some cs) :
    (∀ t : ℤ, (0 ≤ t ∧ t < D) ↔ ∃ c ∈ cs, c.startMs ≤ t ∧ t < c.endMs) ∧
    List.Pairwise (fun a b : Chunk => a.startMs < b.startMs) cs ∧
    List.Chain' (fun a b : Chunk => a.endMs - b.startMs = O * 1000) cs := by
  have hov' : (0:ℤ) ≤ O * 1000 := by positivity
  have hloop : chunkLoop (Int.ediv (9 * M * 1048576 * D) (10 * S))
      (O * 1000) D fuel 0 = some cs := by
    unfold get_audio_chunks at hrun
    rw [if_neg (not_lt.mpr hsize)] at hrun
    exact hrun
  revert hloop
  generalize Int.ediv (9 * M * 1048576 * D) (10 * S) = cd
  intro hloop
  obtain ⟨h1, h2, h3, h4, h5, h6⟩ :=
    chunkLoop_spec cd (O * 1000) D hov' fuel 0 cs hloop
  have hchainO : List.Chain' (fun a b : Chunk =>
      a.endMs - b.startMs = O * 1000) cs := by
    refine h5.imp fun a b hab => ?_
    obtain ⟨e1, _, e3⟩ := hab
    rw [e1, e3]; ring
  by_cases hD : 0 < D
  · obtain ⟨tl, hcs⟩ := h2 hD
    obtain ⟨cl, hcl, hclD⟩ := h4 hD
    rcases tl with _ | ⟨c1, tl'⟩
    · have hclc : cl = ⟨0, min (0 + cd) D, true⟩ := by
        rw [hcs] at hcl; simpa using hcl.symm
      have hminD : min (0 + cd) D = D := by rw [hclc] at hclD; exact hclD
      subst hcs
      refine ⟨fun t => ⟨fun ⟨ht0, htD⟩ => ?_, fun ⟨c, hc, hc1, hc2⟩ => ?_⟩,
        by simp, hchainO⟩
      · exact ⟨⟨0, min (0 + cd) D, true⟩, List.mem_cons_self _ _,
          ht0, by rw [hminD]; exact htD⟩
      · rw [List.mem_singleton] at hc
        subst hc
        exact ⟨hc1, by rw [hminD] at hc2; exact hc2⟩
    · have hstep : 0 < cd - O * 1000 := h6 _ c1 tl' hcs
      have hmono : List.Chain' (fun a b : Chunk =>
          a.startMs < b.startMs) cs := by
        refine h5.imp fun a b hab => ?_
        obtain ⟨_, _, e3⟩ := hab
        rw [e3]; linarith
      have hpair : List.Pairwise (fun a b : Chunk =>
          a.startMs < b.startMs) cs := by
        haveI : IsTrans Chunk (fun a b : Chunk => a.startMs < b.startMs) :=
          ⟨fun _ _ _ h h' => lt_trans h h'⟩
        exact List.chain'_iff_pairwise.mp hmono
      have hnogap : List.Chain' (fun a b : Chunk =>
          b.startMs ≤ a.endMs) cs := by
        refine h5.imp fun a b hab => ?_
        obtain ⟨e1, _, e3⟩ := hab
        rw [e1, e3]; linarith
      have hhead : cs.head? = some ⟨0, min (0 + cd) D, true⟩ := by
        rw [hcs]; rfl
      have hstarts0 : ∀ c ∈ cs, 0 ≤ c.startMs := by
        intro c hc
        rw [hcs] at hc hpair
        rcases List.mem_cons.mp hc with h' | h'
        · rw [h']
        · have := (List.pairwise_cons.mp hpair).1 c h'
          simp only at this
          omega
      refine ⟨fun t => ⟨fun ⟨ht0, htD⟩ => ?_, fun ⟨c, hc, hc1, hc2⟩ => ?_⟩,
        hpair, hchainO⟩
      · exact chunks_cover_sweep cs ⟨0, min (0 + cd) D, true⟩ cl t hhead
          hcl hnogap ht0 (by rw [hclD]; exact htD)
      · refine ⟨le_trans (hstarts0 c hc) hc1, ?_⟩
        have hend : c.endMs ≤ D := by
          rw [(h3 c hc).2]; exact min_le_right _ _
        exact lt_of_lt_of_le hc2 hend
  · have hcs : cs = [] := h1 (by omega)
    subst hcs
    refine ⟨fun t => ?_, List.Pairwise.nil, List.chain'_nil⟩
    simp only [List.not_mem_nil, false_and, exists_false, exists_const,
      iff_false, not_and, not_lt]
    intro _
    omega

/-- C4 witness: a 30 MiB asset of 60 s with the default 25 MB limit and
5 s overlap — two chunks `[0,45000)` and `[40000,60000)`, coverage,
strict starts, exact 5000 ms adjacent overlap. -/
theorem c4_witness :
    ((0:ℤ) ≤ 41000 ∧ (41000:ℤ) < 60000) ↔
      ∃ c ∈ [(⟨0, 45000, true⟩ : Chunk), ⟨40000, 60000, true⟩],
        c.startMs ≤ 41000 ∧ (41000:ℤ) < c.endMs :=
  ((c4_chunk_plan (30 * 1048576) 60000 25 5 20
    [⟨0, 45000, true⟩, ⟨40000, 60000, true⟩]
    (by decide) (by decide) (by decide)).1) 41000
